import Mathlib

/-!
Verification of the constraint-solving engine of a crossword generator
(`generate.py`, class `CrosswordCreator`).

The engine is embedded shallowly:

* A slot (`Variable`) is a value type: start row, start column, direction,
  length — exactly the identity the external grid model supplies.
* The external grid model (`crossword.py`, not part of the solver source)
  is modelled from the spec as a structure `Crossword` carrying the slot
  list, the vocabulary, and the overlap relation; the neighbor relation is
  derived from the overlap relation as the spec describes.
* Python dictionaries (`self.domains`, the assignment) become association
  lists with Python dict semantics: assignment to an existing key replaces
  in place, assignment to a fresh key appends, deletion removes the key.
* Python sets of words become duplicate-free lists; set comprehensions
  become filters (a filtered list equals the original list exactly when the
  corresponding Python sets are equal, so the `!=` tests of the source are
  preserved).
* The two unbounded loops (`ac3`'s worklist loop and `backtrack`'s
  recursion) are given explicit fuel; running out of fuel yields `none`.
  The consistency checker, which in Python can raise `IndexError` when an
  assigned word is shorter than an overlap offset, is embedded with
  explicit fault propagation (`Option Bool`), and a fault aborts the
  search just as the exception would.
-/

/-- Direction of a slot: one of two axis values. -/
inductive Direction where
  | across
  | down
deriving DecidableEq, Repr

/-- A crossword slot, identified by starting row, starting column,
direction and length (structural equality, used as a dictionary key). -/
structure Variable where
  i : Nat
  j : Nat
  direction : Direction
  length : Nat
deriving DecidableEq, Repr

/-- A candidate word: a finite string over the grid's alphabet. -/
abbrev Word := List Char

/-- Character of `w` at index `i` (total encoding of Python `w[i]`; all
uses in the theorems are guarded so only in-range indices matter). -/
def charAt (w : Word) (i : Nat) : Char :=
  w.getD i '?'

/-- Python dictionary keyed by slots, as an association list. -/
abbrev PyDict (α : Type) := List (Variable × α)

/-- The domain store: per-slot list of currently viable words. -/
abbrev Dict := PyDict (List Word)

/-- A (possibly partial) assignment of words to slots. -/
abbrev Assignment := PyDict Word

/-- Python `d[k]` as an `Option` (first binding of the key). -/
def dictGet {α : Type} : PyDict α → Variable → Option α
  | [], _ => none
  | (k, v) :: rest, key => if k = key then some v else dictGet rest key

/-- Python `d[k]` with an explicit default for the (out-of-contract)
missing-key case. -/
def dictGetD {α : Type} (d : PyDict α) (key : Variable) (dflt : α) : α :=
  (dictGet d key).getD dflt

/-- Python `k in d`. -/
def dictHasKey {α : Type} (d : PyDict α) (key : Variable) : Bool :=
  (dictGet d key).isSome

/-- Python `d[k] = v`: replace the binding in place if the key is present,
append a new binding otherwise (insertion-order semantics of `dict`). -/
def dictSet {α : Type} : PyDict α → Variable → α → PyDict α
  | [], key, v => [(key, v)]
  | (k, v') :: rest, key, v =>
      if k = key then (k, v) :: rest else (k, v') :: dictSet rest key v

/-- Python `del d[k]`. -/
def dictDel {α : Type} (d : PyDict α) (key : Variable) : PyDict α :=
  d.filter (fun p => p.1 ≠ key)

/-- The key list of a dictionary, in insertion order. -/
def dictKeys {α : Type} (d : PyDict α) : List Variable :=
  d.map Prod.fst

/-- Modelled from the spec: the external grid/topology collaborator
(`crossword.py` is not part of the solver source).  It supplies the
enumerable set of slots, the vocabulary, and the overlap relation
`overlap(slot_a, slot_b) -> Option (offset_a, offset_b)` giving the
character index within each slot's word that must agree. -/
structure Crossword where
  vars : List Variable
  words : List Word
  overlaps : Variable → Variable → Option (Nat × Nat)

/-- Modelled from the spec: the neighbor relation of the external grid
model — "for a slot, the set of other slots it overlaps with.  Derived
from the overlap relation." -/
def neighbors (cw : Crossword) (v : Variable) : List Variable :=
  cw.vars.filter (fun u => u ≠ v && (cw.overlaps v u).isSome)

/-- One well-formedness condition on a pair of slots: if they overlap,
the overlap is symmetric with swapped offsets and the offsets lie inside
the slot lengths. -/
def overlapWFB (cw : Crossword) (x y : Variable) : Bool :=
  match cw.overlaps x y with
  | none => true
  | some (i, j) =>
      cw.overlaps y x == some (j, i) && i < x.length && j < y.length

/-- Well-formedness of the external grid data, assumed by the solver
(spec section 7: the solver does not re-validate its inputs): on the
crossword's slots the overlap relation is irreflexive, symmetric with
swapped offsets, and its offsets lie inside the slot lengths. -/
def WF (cw : Crossword) : Prop :=
  ∀ x ∈ cw.vars, ∀ y ∈ cw.vars,
    cw.overlaps x x = none ∧ overlapWFB cw x y = true

/-- `CrosswordCreator.__init__`: the domain store maps every slot to a
copy of the full vocabulary. -/
def initDomains (cw : Crossword) : Dict :=
  cw.vars.map (fun v => (v, cw.words))

/-- `CrosswordCreator.enforce_node_consistency`: filter every slot's
domain down to the words whose length equals the slot's length. -/
def enforce_node_consistency (d : Dict) : Dict :=
  d.map (fun p => (p.1, p.2.filter (fun w => w.length == p.1.length)))

/-- `CrosswordCreator.revise`: make `x` arc consistent with `y`.  If the
slots overlap, keep in `domains[x]` only the words having at least one
agreeing partner in `domains[y]`; return whether `domains[x]` changed
(the source compares the old and the new set with `!=`). -/
def revise (cw : Crossword) (d : Dict) (x y : Variable) : Bool × Dict :=
  match cw.overlaps x y with
  | none => (false, d)
  | some (o₁, o₂) =>
      let xdom := dictGetD d x []
      let valid_words := xdom.filter (fun wx =>
        (dictGetD d y []).any (fun wy => charAt wx o₁ == charAt wy o₂))
      if xdom ≠ valid_words then (true, dictSet d x valid_words)
      else (false, d)

/-- The initial arc list of `ac3`: all ordered pairs of distinct slots,
in domain-store key order. -/
def allArcs (d : Dict) : List (Variable × Variable) :=
  (dictKeys d).flatMap (fun x =>
    ((dictKeys d).filter (fun y => x ≠ y)).map (fun y => (x, y)))

/-- Outcome of one iteration of `ac3`'s worklist loop. -/
inductive Ac3Out where
  | done (ok : Bool) (d : Dict)
  | cont (d : Dict) (arcs : List (Variable × Variable))
deriving DecidableEq, Repr

/-- One iteration of `ac3`'s loop: pop an arc `(x, y)` from the back
(`arcs.pop()`), call `revise`; fail if `domains[x]` was revised to empty;
otherwise — unconditionally in the source, the re-enqueue `for` loop is
not under the `if self.revise(x, y)` test — push `(z, x)` to the front
(`arcs.insert(0, …)`) for every neighbor `z` of `x` other than `y`. -/
def ac3Step (cw : Crossword) (d : Dict) (arcs : List (Variable × Variable)) :
    Ac3Out :=
  match arcs.getLast? with
  | none => .done true d
  | some (x, y) =>
      let rest := arcs.dropLast
      let r := revise cw d x y
      if r.1 && (dictGetD r.2 x []).isEmpty then .done false r.2
      else
        .cont r.2
          ((((neighbors cw x).filter (fun z => z ≠ y)).map
              (fun z => (z, x))).reverse ++ rest)

/-- `ac3`'s `while arcs:` loop, with fuel; `none` means the fuel ran out
before the loop finished. -/
def ac3Loop (cw : Crossword) : Nat → Dict → List (Variable × Variable) →
    Option (Bool × Dict)
  | 0, _, _ => none
  | fuel + 1, d, arcs =>
      match ac3Step cw d arcs with
      | .done ok d' => some (ok, d')
      | .cont d' arcs' => ac3Loop cw fuel d' arcs'

/-- `CrosswordCreator.ac3`: the source's `if not arcs:` replaces both a
missing argument and an empty list by the list of all arcs. -/
def ac3 (cw : Crossword) (fuel : Nat) (d : Dict)
    (arcs : Option (List (Variable × Variable))) : Option (Bool × Dict) :=
  let initial := match arcs with
    | none => allArcs d
    | some l => if l.isEmpty then allArcs d else l
  ac3Loop cw fuel d initial

/-- `CrosswordCreator.assignment_complete`:
`set(assignment.keys()) == set(self.domains.keys())`. -/
def assignment_complete (d : Dict) (a : Assignment) : Bool :=
  (dictKeys a).all (fun k => (dictKeys d).contains k) &&
  (dictKeys d).all (fun k => (dictKeys a).contains k)

/-- The comparisons generated by the `words_no_conflict` comprehension of
`CrosswordCreator.consistent`, in generation order: for every assigned
slot `word`, every assigned neighbour of it yields the pair
`(neighbour, word)`. -/
def overlapChecks (cw : Crossword) (a : Assignment) :
    List (Variable × Variable) :=
  (dictKeys a).flatMap (fun w =>
    ((neighbors cw w).filter (fun n => dictHasKey a n)).map (fun n => (n, w)))

/-- One comparison
`assignment[neighbour][overlap[0]] == assignment[word][overlap[1]]`,
with `none` standing for the `IndexError`/`KeyError` the Python
expression raises when an index or key is out of range. -/
def checkPair (cw : Crossword) (a : Assignment) (p : Variable × Variable) :
    Option Bool :=
  match cw.overlaps p.1 p.2 with
  | none => none
  | some (o₁, o₂) =>
      match dictGet a p.1, dictGet a p.2 with
      | some wn, some ww =>
          match wn[o₁]?, ww[o₂]? with
          | some c₁, some c₂ => some (c₁ == c₂)
          | _, _ => none
      | _, _ => none

/-- Python `all(…)` over the generated comparisons: short-circuits on the
first `False`, propagates a fault. -/
def conflictsAll (cw : Crossword) (a : Assignment) :
    List (Variable × Variable) → Option Bool
  | [] => some true
  | p :: ps =>
      match checkPair cw a p with
      | none => none
      | some false => some false
      | some true => conflictsAll cw a ps

/-- Python `len(values) == len(set(values))`. -/
def distinctB (l : List Word) : Bool :=
  l.dedup.length == l.length

/-- `CrosswordCreator.consistent`: the three checks of the source —
length fit, no repeated word, no conflict with assigned neighbours —
combined with `all((repetition, words_fit_board, words_no_conflict))`.
The result is `none` when the conflict comprehension faults. -/
def consistent (cw : Crossword) (a : Assignment) : Option Bool :=
  let words_fit_board := a.all (fun p => p.2.length == p.1.length)
  let repetition := distinctB (a.map Prod.snd)
  match conflictsAll cw a (overlapChecks cw a) with
  | none => none
  | some words_no_conflict =>
      some (repetition && words_fit_board && words_no_conflict)

/-- The rule-out count of `CrosswordCreator.order_domain_values`: over
all unassigned neighbours `n` of `var`, the number of words in
`domains[n]` disagreeing with `word` at the overlap offsets. -/
def ruleOut (cw : Crossword) (d : Dict) (a : Assignment) (var : Variable)
    (word : Word) : Nat :=
  ((neighbors cw var).filter (fun n => !dictHasKey a n)).foldl
    (fun acc n =>
      acc +
        ((dictGetD d n []).filter (fun nw =>
          match cw.overlaps n var with
          | some (o₁, o₂) => !(charAt nw o₁ == charAt word o₂)
          | none => false)).length)
    0

/-- Stable insertion of `x` into a sorted list: `x` is placed before the
first element not strictly below it, so elements with equal keys keep
their original relative order. -/
def insertSorted {α : Type} (lt : α → α → Bool) (x : α) : List α → List α
  | [] => [x]
  | y :: ys => if lt y x then y :: insertSorted lt x ys else x :: y :: ys

/-- Stable insertion sort ascending with respect to `lt`, matching the
stable ascending order of Python `sorted`. -/
def stableSort {α : Type} (lt : α → α → Bool) (l : List α) : List α :=
  l.foldr (insertSorted lt) []

/-- `CrosswordCreator.order_domain_values`: the words of `domains[var]`
stably sorted ascending by rule-out count (Python `sorted` is stable). -/
def order_domain_values (cw : Crossword) (d : Dict) (var : Variable)
    (a : Assignment) : List Word :=
  stableSort (fun w₁ w₂ => ruleOut cw d a var w₁ < ruleOut cw d a var w₂)
    (dictGetD d var [])

/-- The tuple key `(-len(domain), degree)` of
`CrosswordCreator.select_unassigned_variable`, compared lexicographically:
`v` beats `best` when its domain is strictly smaller, or equally small
with strictly more neighbors. -/
def betterVar (cw : Crossword) (d : Dict) (v best : Variable) : Bool :=
  (dictGetD d v []).length < (dictGetD d best []).length ||
  ((dictGetD d v []).length == (dictGetD d best []).length &&
    (neighbors cw best).length < (neighbors cw v).length)

/-- `CrosswordCreator.select_unassigned_variable`: among the domain-store
slots not in the assignment, the first slot (in store order) maximising
`(-len(domain), degree)` — Python `max` keeps the first maximum.  `none`
models the `ValueError` `max` raises on an empty candidate list. -/
def select_unassigned_variable (cw : Crossword) (d : Dict) (a : Assignment) :
    Option Variable :=
  match (dictKeys d).filter (fun v => !dictHasKey a v) with
  | [] => none
  | c :: cs => some (cs.foldl (fun best v =>
      if betterVar cw d v best then v else best) c)

/-- Python truthiness of `backtrack`'s result in `if result:`: `None` and
the empty dictionary are falsy. -/
def truthy : Option Assignment → Bool
  | none => false
  | some a => !a.isEmpty

/-- The `for value in self.order_domain_values(…)` loop of
`CrosswordCreator.backtrack`, parametrised by the recursive call.  The
crucial detail of the source is preserved: `del assignment[unassigned_var]`
sits inside the `if self.consistent(assignment):` branch, so a tentative
extension that fails the consistency check is NOT removed.  The loop
threads the mutated assignment; `none` models a fault or exhausted fuel
in a recursive call. -/
def tryValues (cw : Crossword)
    (recurse : Assignment → Option (Option Assignment × Assignment))
    (var : Variable) :
    List Word → Assignment → Option (Option Assignment × Assignment)
  | [], a => some (none, a)
  | v :: vs, a =>
      let a1 := dictSet a var v
      match consistent cw a1 with
      | none => none
      | some false => tryValues cw recurse var vs a1
      | some true =>
          match recurse a1 with
          | none => none
          | some (res, a2) =>
              if truthy res then some (res, a2)
              else tryValues cw recurse var vs (dictDel a2 var)

/-- `CrosswordCreator.backtrack`, with fuel bounding the recursion depth:
return the assignment if complete, otherwise select a slot and try its
ordered candidate words.  The result pairs the returned value with the
final state of the (mutated) assignment dictionary. -/
def backtrack (cw : Crossword) (d : Dict) :
    Nat → Assignment → Option (Option Assignment × Assignment)
  | 0, _ => none
  | fuel + 1, a =>
      if assignment_complete d a then some (some a, a)
      else
        match select_unassigned_variable cw d a with
        | none => none
        | some var =>
            tryValues cw (backtrack cw d fuel) var
              (order_domain_values cw d var a) a

/-- `CrosswordCreator.solve`: enforce node consistency, run `ac3`
(its boolean result is discarded by the source), then backtrack from the
empty assignment.  `none` means a run that does not finish (unbounded
`ac3` loop or exhausted fuel); `some none` is the explicit "no solution"
result; `some (some a)` is a solution. -/
def solve (cw : Crossword) (fuel : Nat) : Option (Option Assignment) :=
  let d0 := initDomains cw
  let d1 := enforce_node_consistency d0
  match ac3 cw fuel d1 none with
  | none => none
  | some (_, d2) =>
      match backtrack cw d2 fuel [] with
      | none => none
      | some (res, _) => some res

/-- Spec-side agreement of one ordered pair of assigned slots: if the
slots overlap, the words agree on the shared-offset characters. -/
def overlapAgreesB (cw : Crossword) (p q : Variable × Word) : Bool :=
  match cw.overlaps p.1 q.1 with
  | none => true
  | some (o₁, o₂) => charAt p.2 o₁ == charAt q.2 o₂

/-- The spec's notion of a consistent assignment (section 3): every
assigned word fits its slot's length, all assigned words are pairwise
distinct, and every pair of assigned overlapping slots agrees on the
shared-offset characters. -/
def SpecConsistent (cw : Crossword) (a : Assignment) : Prop :=
  (∀ p ∈ a, (p.2 : Word).length = p.1.length) ∧
  (a.map Prod.snd).Nodup ∧
  (∀ p ∈ a, ∀ q ∈ a, overlapAgreesB cw p q = true)

/-- Concrete instance for the frame-condition analysis of `backtrack`: a
single slot of length 2 whose only candidate word has length 3. -/
def vSolo : Variable := ⟨0, 0, .across, 2⟩

/-- The length-3 word `abc`. -/
def wABC : Word := ['a', 'b', 'c']

/-- A crossword with the single slot `vSolo`, vocabulary `{abc}`, and no
overlaps. -/
def cw1 : Crossword := ⟨[vSolo], [wABC], fun _ _ => none⟩

/-- Slot of the 2x2 fully open grid: the first row (across, length 2). -/
def vA : Variable := ⟨0, 0, .across, 2⟩

/-- Slot of the 2x2 grid: the second row (across, length 2). -/
def vB : Variable := ⟨1, 0, .across, 2⟩

/-- Slot of the 2x2 grid: the first column (down, length 2). -/
def vC : Variable := ⟨0, 0, .down, 2⟩

/-- Slot of the 2x2 grid: the second column (down, length 2). -/
def vD : Variable := ⟨0, 1, .down, 2⟩

/-- The overlap relation of the 2x2 fully open grid: each row slot
crosses each column slot in one cell; offsets are the character indices
of the shared cell in each word. -/
def overlaps4 (x y : Variable) : Option (Nat × Nat) :=
  if x = vA ∧ y = vC then some (0, 0)
  else if x = vA ∧ y = vD then some (1, 0)
  else if x = vB ∧ y = vC then some (0, 1)
  else if x = vB ∧ y = vD then some (1, 1)
  else if x = vC ∧ y = vA then some (0, 0)
  else if x = vD ∧ y = vA then some (0, 1)
  else if x = vC ∧ y = vB then some (1, 0)
  else if x = vD ∧ y = vB then some (1, 1)
  else none

/-- The 2x2 fully open grid with vocabulary `{ab, ca, ac, ba}`.  Its
overlap graph is a 4-cycle (row-column-row-column), and the vocabulary is
chosen so that every domain is already arc consistent. -/
def cw4 : Crossword :=
  ⟨[vA, vB, vC, vD],
   [['a', 'b'], ['c', 'a'], ['a', 'c'], ['b', 'a']],
   overlaps4⟩

/-- The domain store of `cw4` after node consistency (all four words have
length 2, so nothing is filtered). -/
def dom4 : Dict := enforce_node_consistency (initDomains cw4)

/-- A complete satisfying assignment for `cw4`: rows `ab`, `ca`; columns
`ac`, `ba`. -/
def aSol : Assignment :=
  [(vA, ['a', 'b']), (vB, ['c', 'a']), (vC, ['a', 'c']), (vD, ['b', 'a'])]

/-- Two crossing slots of length 2: a row and a column sharing their
first characters. -/
def vX : Variable := ⟨0, 0, .across, 2⟩

/-- The column slot crossing `vX`. -/
def vY : Variable := ⟨0, 0, .down, 2⟩

/-- Overlap relation of the two crossing slots: they agree at offset 0 of
both words. -/
def overlaps2 (x y : Variable) : Option (Nat × Nat) :=
  if x = vX ∧ y = vY then some (0, 0)
  else if x = vY ∧ y = vX then some (0, 0)
  else none

/-- Two crossing slots with vocabulary `{ab, cd}` (no valid filling:
the words disagree at the shared cell). -/
def cw2 : Crossword := ⟨[vX, vY], [['a', 'b'], ['c', 'd']], overlaps2⟩

/-- Two crossing slots with vocabulary `{ab, ac}` (satisfiable: the two
words share their first character `a`). -/
def cw3 : Crossword := ⟨[vX, vY], [['a', 'b'], ['a', 'c']], overlaps2⟩

/-- In-range condition for one ordered pair of assigned slots: the
overlap offsets (if any) fall inside the two assigned words.  Python's
checker indexes the words at these offsets, so this is exactly the
condition under which it cannot raise `IndexError` on the pair. -/
def inRangeB (cw : Crossword) (p q : Variable × Word) : Bool :=
  match cw.overlaps p.1 q.1 with
  | none => true
  | some (i, j) => decide (i < p.2.length) && decide (j < q.2.length)

instance (cw : Crossword) (a : Assignment) :
    Decidable (SpecConsistent cw a) :=
  inferInstanceAs (Decidable
    ((∀ p ∈ a, (p.2 : Word).length = p.1.length) ∧
     (a.map Prod.snd).Nodup ∧
     (∀ p ∈ a, ∀ q ∈ a, overlapAgreesB cw p q = true)))

instance (cw : Crossword) : Decidable (WF cw) :=
  inferInstanceAs (Decidable
    (∀ x ∈ cw.vars, ∀ y ∈ cw.vars,
      cw.overlaps x x = none ∧ overlapWFB cw x y = true))


/-- The domain store of `cw2` after node consistency (both words already
have length 2, so nothing is filtered). -/
def dom2 : Dict := enforce_node_consistency (initDomains cw2)

/-- The word `ab`. -/
def wAB : Word := ['a', 'b']


/-- Slot for the checker-fault instance: a row of length 3. -/
def vP : Variable := ⟨0, 0, .across, 3⟩

/-- Slot for the checker-fault instance: a column of length 3 crossing
the last cell of `vP`. -/
def vQ : Variable := ⟨0, 2, .down, 3⟩

/-- Overlap relation of the checker-fault instance: `vP` and `vQ` share
the cell at offset 2 of `vP` and offset 0 of `vQ`. -/
def overlapsC6 (x y : Variable) : Option (Nat × Nat) :=
  if x = vP ∧ y = vQ then some (2, 0)
  else if x = vQ ∧ y = vP then some (0, 2)
  else none

/-- The checker-fault crossword: two crossing slots of length 3. -/
def cwC6 : Crossword := ⟨[vP, vQ], [], overlapsC6⟩

/-- An assignment on which Python's `consistent` raises `IndexError`:
the word `a` assigned to `vP` is too short for the overlap offset 2. -/
def aC6 : Assignment := [(vP, ['a']), (vQ, ['b', 'c', 'd'])]

/-- The complete assignment `{vX: ab, vY: ac}` of `cw3`. -/
def aXY : Assignment := [(vX, ['a', 'b']), (vY, ['a', 'c'])]

/-! Association-list (Python dictionary) lemmas. -/

theorem dictGet_dictSet_self {α : Type} (d : PyDict α) (k : Variable) (v : α) :
    dictGet (dictSet d k v) k = some v := by
  induction d with
  | nil => simp [dictSet, dictGet]
  | cons p rest ih =>
      obtain ⟨k', v'⟩ := p
      by_cases h : k' = k
      · subst h; simp [dictSet, dictGet]
      · simp [dictSet, dictGet, h, ih]

theorem dictGet_dictSet_ne {α : Type} (d : PyDict α) (k : Variable) (v : α)
    {k' : Variable} (h : k' ≠ k) :
    dictGet (dictSet d k v) k' = dictGet d k' := by
  induction d with
  | nil => simp [dictSet, dictGet, Ne.symm h]
  | cons p rest ih =>
      obtain ⟨k₁, v₁⟩ := p
      by_cases h₁ : k₁ = k
      · subst h₁
        simp only [dictSet, if_pos rfl, dictGet, if_neg (Ne.symm h)]
      · simp only [dictSet, if_neg h₁]
        by_cases h₂ : k₁ = k'
        · simp [dictGet, h₂]
        · simp [dictGet, h₂, ih]

theorem mem_dictKeys_dictSet {α : Type} {d : PyDict α} {k v}
    {x : Variable} (h : x ∈ dictKeys (dictSet d k v)) :
    x = k ∨ x ∈ dictKeys d := by
  induction d with
  | nil => simpa [dictSet, dictKeys] using h
  | cons p rest ih =>
      obtain ⟨k₁, v₁⟩ := p
      by_cases h₁ : k₁ = k
      · subst h₁
        simpa [dictSet, dictKeys] using h
      · simp only [dictSet, if_neg h₁, dictKeys, List.map_cons,
          List.mem_cons] at h
        rcases h with h | h
        · exact Or.inr (by simp [dictKeys, h])
        · rcases ih h with h | h
          · exact Or.inl h
          · exact Or.inr (by simp [dictKeys] at h ⊢; exact Or.inr h)

theorem dictKeys_dictSet_of_mem {α : Type} {d : PyDict α} {k : Variable}
    (v : α) (h : k ∈ dictKeys d) :
    dictKeys (dictSet d k v) = dictKeys d := by
  induction d with
  | nil => simp [dictKeys] at h
  | cons p rest ih =>
      obtain ⟨k₁, v₁⟩ := p
      by_cases h₁ : k₁ = k
      · subst h₁; simp [dictSet, dictKeys]
      · simp only [dictKeys, List.map_cons, List.mem_cons] at h
        rcases h with h | h
        · exact absurd h.symm h₁
        · have := ih (by simpa [dictKeys] using h)
          simp only [dictSet, if_neg h₁, dictKeys, List.map_cons]
          simpa [dictKeys] using this

theorem mem_of_dictGet {α : Type} {d : PyDict α} {k : Variable} {v : α}
    (h : dictGet d k = some v) : (k, v) ∈ d := by
  induction d with
  | nil => simp [dictGet] at h
  | cons p rest ih =>
      obtain ⟨k₁, v₁⟩ := p
      by_cases h₁ : k₁ = k
      · subst h₁
        rw [show dictGet ((k₁, v₁) :: rest) k₁ = some v₁ from by
          simp [dictGet]] at h
        cases h
        simp
      · simp only [dictGet, if_neg h₁] at h
        exact List.mem_cons_of_mem _ (ih h)

theorem dictGet_isSome_iff {α : Type} {d : PyDict α} {k : Variable} :
    (dictGet d k).isSome = true ↔ k ∈ dictKeys d := by
  induction d with
  | nil => simp [dictGet, dictKeys]
  | cons p rest ih =>
      obtain ⟨k₁, v₁⟩ := p
      by_cases h₁ : k₁ = k
      · subst h₁; simp [dictGet, dictKeys]
      · simp [dictGet, h₁, dictKeys, ih, Ne.symm h₁]

theorem dictGet_of_mem_nodup {α : Type} {d : PyDict α} {k : Variable} {v : α}
    (hnd : (dictKeys d).Nodup) (h : (k, v) ∈ d) : dictGet d k = some v := by
  induction d with
  | nil => simp at h
  | cons p rest ih =>
      obtain ⟨k₁, v₁⟩ := p
      simp only [dictKeys, List.map_cons, List.nodup_cons] at hnd
      rcases List.mem_cons.mp h with h | h
      · simp only [Prod.mk.injEq] at h
        simp [dictGet, h.1, h.2]
      · have hk : k₁ ≠ k := by
          intro he
          subst he
          exact hnd.1 (by simpa [dictKeys] using List.mem_map_of_mem Prod.fst h)
        simp [dictGet, hk, ih hnd.2 h]

theorem dictKeys_nodup_dictSet {α : Type} {d : PyDict α}
    (hnd : (dictKeys d).Nodup) (k : Variable) (v : α) :
    (dictKeys (dictSet d k v)).Nodup := by
  induction d with
  | nil => simp [dictSet, dictKeys]
  | cons p rest ih =>
      obtain ⟨k₁, v₁⟩ := p
      simp only [dictKeys, List.map_cons, List.nodup_cons] at hnd
      by_cases h₁ : k₁ = k
      · subst h₁
        simpa [dictSet, dictKeys] using hnd
      · simp only [dictSet, if_neg h₁, dictKeys, List.map_cons,
          List.nodup_cons]
        refine ⟨fun hmem => ?_, ih hnd.2⟩
        rcases mem_dictKeys_dictSet (by simpa [dictKeys] using hmem) with h | h
        · exact h₁ h
        · exact hnd.1 (by simpa [dictKeys] using h)

theorem dictKeys_nodup_dictDel {α : Type} {d : PyDict α}
    (hnd : (dictKeys d).Nodup) (k : Variable) :
    (dictKeys (dictDel d k)).Nodup := by
  have hsub : (dictKeys (dictDel d k)).Sublist (dictKeys d) :=
    (List.filter_sublist d).map Prod.fst
  exact hnd.sublist hsub


/-! Node consistency: key preservation and domain shrinkage. -/

theorem dictKeys_enforce (d : Dict) :
    dictKeys (enforce_node_consistency d) = dictKeys d := by
  simp [dictKeys, enforce_node_consistency, List.map_map, Function.comp]

theorem dictGet_enforce (d : Dict) (k : Variable) :
    dictGet (enforce_node_consistency d) k =
      (dictGet d k).map (fun ws => ws.filter (fun w => w.length == k.length)) := by
  induction d with
  | nil => simp [enforce_node_consistency, dictGet]
  | cons p rest ih =>
      obtain ⟨k₁, ws⟩ := p
      by_cases h₁ : k₁ = k
      · subst h₁
        simp [enforce_node_consistency, dictGet]
      · simp only [enforce_node_consistency, List.map_cons] at ih ⊢
        simp only [dictGet, if_neg h₁]
        exact ih

theorem enforce_subset (d : Dict) (v : Variable) (w : Word)
    (h : w ∈ dictGetD (enforce_node_consistency d) v []) :
    w ∈ dictGetD d v [] := by
  unfold dictGetD at h ⊢
  rw [dictGet_enforce] at h
  cases hg : dictGet d v with
  | none => simp [hg] at h
  | some ws =>
      simp only [hg, Option.map_some, Option.getD_some] at h ⊢
      exact (List.mem_filter.mp h).1

/-! Revise: effect on the store, the returned flag, key preservation. -/

theorem revise_get_other (cw : Crossword) (d : Dict) (x y v : Variable)
    (hvx : v ≠ x) :
    dictGet (revise cw d x y).2 v = dictGet d v := by
  unfold revise
  cases cw.overlaps x y with
  | none => rfl
  | some o =>
      obtain ⟨o₁, o₂⟩ := o
      dsimp only
      split
      · exact dictGet_dictSet_ne d x _ hvx
      · rfl

theorem revise_keys (cw : Crossword) (d : Dict) (x y : Variable) :
    dictKeys (revise cw d x y).2 = dictKeys d := by
  unfold revise
  cases cw.overlaps x y with
  | none => rfl
  | some o =>
      obtain ⟨o₁, o₂⟩ := o
      dsimp only
      split
      case isTrue hne =>
        have hmem : x ∈ dictKeys d := by
          by_contra hx
          have hnone : dictGet d x = none := by
            cases hg : dictGet d x with
            | none => rfl
            | some ws =>
                exact absurd (dictGet_isSome_iff.mp (by simp [hg])) hx
          simp [dictGetD, hnone] at hne
        exact dictKeys_dictSet_of_mem _ hmem
      case isFalse => rfl

theorem revise_mem_x (cw : Crossword) (d : Dict) (x y : Variable) (w : Word) :
    w ∈ dictGetD (revise cw d x y).2 x [] ↔
      w ∈ dictGetD d x [] ∧
        (cw.overlaps x y = none ∨
          ∃ o₁ o₂, cw.overlaps x y = some (o₁, o₂) ∧
            ∃ wy ∈ dictGetD d y [], charAt wy o₂ = charAt w o₁) := by
  unfold revise
  cases hov : cw.overlaps x y with
  | none => simp
  | some o =>
      obtain ⟨o₁, o₂⟩ := o
      dsimp only
      split
      case isTrue hne =>
        rw [show dictGetD (dictSet d x ((dictGetD d x []).filter
              (fun wx => (dictGetD d y []).any
                (fun wy => charAt wx o₁ == charAt wy o₂)))) x []
            = (dictGetD d x []).filter (fun wx => (dictGetD d y []).any
                (fun wy => charAt wx o₁ == charAt wy o₂))
          from by simp [dictGetD, dictGet_dictSet_self]]
        simp only [List.mem_filter, List.any_eq_true, beq_iff_eq]
        constructor
        · rintro ⟨hmem, wy, hwy, heq⟩
          exact ⟨hmem, Or.inr ⟨o₁, o₂, rfl, wy, hwy, heq.symm⟩⟩
        · rintro ⟨hmem, h | h⟩
          · simp at h
          · obtain ⟨o₁', o₂', ho, wy, hwy, heq⟩ := h
            obtain ⟨rfl, rfl⟩ : o₁ = o₁' ∧ o₂ = o₂' := by
              simpa using ho
            exact ⟨hmem, wy, hwy, heq.symm⟩
      case isFalse hne =>
        push_neg at hne
        constructor
        · intro hmem
          refine ⟨hmem, Or.inr ⟨o₁, o₂, rfl, ?_⟩⟩
          have hmem' : w ∈ (dictGetD d x []).filter
              (fun wx => (dictGetD d y []).any
                (fun wy => charAt wx o₁ == charAt wy o₂)) := hne ▸ hmem
          obtain ⟨-, hany⟩ := List.mem_filter.mp hmem'
          obtain ⟨wy, hwy, heq⟩ := List.any_eq_true.mp hany
          exact ⟨wy, hwy, (beq_iff_eq.mp heq).symm⟩
        · exact fun h => h.1

theorem revise_flag (cw : Crossword) (d : Dict) (x y : Variable) :
    (revise cw d x y).1 = true ↔
      dictGetD (revise cw d x y).2 x [] ≠ dictGetD d x [] := by
  unfold revise
  cases hov : cw.overlaps x y with
  | none => simp
  | some o =>
      obtain ⟨o₁, o₂⟩ := o
      dsimp only
      split
      case isTrue hne =>
        simp only [true_iff]
        rw [show dictGetD (dictSet d x ((dictGetD d x []).filter
              (fun wx => (dictGetD d y []).any
                (fun wy => charAt wx o₁ == charAt wy o₂)))) x []
            = (dictGetD d x []).filter (fun wx => (dictGetD d y []).any
                (fun wy => charAt wx o₁ == charAt wy o₂))
          from by simp [dictGetD, dictGet_dictSet_self]]
        exact fun h => hne h.symm
      case isFalse hne =>
        simp

theorem revise_subset (cw : Crossword) (d : Dict) (x y v : Variable)
    (w : Word) (h : w ∈ dictGetD (revise cw d x y).2 v []) :
    w ∈ dictGetD d v [] := by
  by_cases hvx : v = x
  · subst hvx
    exact ((revise_mem_x cw d v y w).mp h).1
  · rwa [dictGetD, revise_get_other cw d x y v hvx] at h

/-! The `ac3` worklist loop: key preservation and domain shrinkage. -/

theorem ac3Step_done_keys {cw : Crossword} {d : Dict} {arcs} {ok : Bool}
    {d₁ : Dict} (h : ac3Step cw d arcs = .done ok d₁) :
    dictKeys d₁ = dictKeys d := by
  unfold ac3Step at h
  cases harcs : arcs.getLast? with
  | none =>
      rw [harcs] at h
      cases h
      rfl
  | some p =>
      obtain ⟨x, y⟩ := p
      rw [harcs] at h
      dsimp only at h
      split at h
      · cases h
        exact revise_keys cw d x y
      · cases h

theorem ac3Step_cont_keys {cw : Crossword} {d : Dict} {arcs} {d₁ : Dict}
    {arcs'} (h : ac3Step cw d arcs = .cont d₁ arcs') :
    dictKeys d₁ = dictKeys d := by
  unfold ac3Step at h
  cases harcs : arcs.getLast? with
  | none => rw [harcs] at h; cases h
  | some p =>
      obtain ⟨x, y⟩ := p
      rw [harcs] at h
      dsimp only at h
      split at h
      · cases h
      · cases h
        exact revise_keys cw d x y

theorem ac3Step_done_subset {cw : Crossword} {d : Dict} {arcs} {ok : Bool}
    {d₁ : Dict} (h : ac3Step cw d arcs = .done ok d₁) (v : Variable)
    (w : Word) (hw : w ∈ dictGetD d₁ v []) : w ∈ dictGetD d v [] := by
  unfold ac3Step at h
  cases harcs : arcs.getLast? with
  | none =>
      rw [harcs] at h
      cases h
      exact hw
  | some p =>
      obtain ⟨x, y⟩ := p
      rw [harcs] at h
      dsimp only at h
      split at h
      · cases h
        exact revise_subset cw d x y v w hw
      · cases h

theorem ac3Step_cont_subset {cw : Crossword} {d : Dict} {arcs} {d₁ : Dict}
    {arcs'} (h : ac3Step cw d arcs = .cont d₁ arcs') (v : Variable)
    (w : Word) (hw : w ∈ dictGetD d₁ v []) : w ∈ dictGetD d v [] := by
  unfold ac3Step at h
  cases harcs : arcs.getLast? with
  | none => rw [harcs] at h; cases h
  | some p =>
      obtain ⟨x, y⟩ := p
      rw [harcs] at h
      dsimp only at h
      split at h
      · cases h
      · cases h
        exact revise_subset cw d x y v w hw

theorem ac3Loop_keys (cw : Crossword) :
    ∀ (fuel : Nat) (d : Dict) (arcs) (b : Bool) (d' : Dict),
      ac3Loop cw fuel d arcs = some (b, d') → dictKeys d' = dictKeys d := by
  intro fuel
  induction fuel with
  | zero => intro d arcs b d' h; simp [ac3Loop] at h
  | succ n ih =>
      intro d arcs b d' h
      rw [ac3Loop] at h
      cases hstep : ac3Step cw d arcs with
      | done ok d₁ =>
          rw [hstep] at h
          cases h
          exact ac3Step_done_keys hstep
      | cont d₁ arcs' =>
          rw [hstep] at h
          exact (ih d₁ arcs' b d' h).trans (ac3Step_cont_keys hstep)

theorem ac3Loop_subset (cw : Crossword) :
    ∀ (fuel : Nat) (d : Dict) (arcs) (b : Bool) (d' : Dict),
      ac3Loop cw fuel d arcs = some (b, d') →
      ∀ (v : Variable) (w : Word),
        w ∈ dictGetD d' v [] → w ∈ dictGetD d v [] := by
  intro fuel
  induction fuel with
  | zero => intro d arcs b d' h; simp [ac3Loop] at h
  | succ n ih =>
      intro d arcs b d' h v w hw
      rw [ac3Loop] at h
      cases hstep : ac3Step cw d arcs with
      | done ok d₁ =>
          rw [hstep] at h
          cases h
          exact ac3Step_done_subset hstep v w hw
      | cont d₁ arcs' =>
          rw [hstep] at h
          exact ac3Step_cont_subset hstep v w (ih d₁ arcs' b d' h v w hw)

theorem ac3_keys {cw : Crossword} {fuel : Nat} {d : Dict} {arcs} {b : Bool}
    {d' : Dict} (h : ac3 cw fuel d arcs = some (b, d')) :
    dictKeys d' = dictKeys d :=
  ac3Loop_keys cw fuel d _ b d' h

theorem ac3_subset {cw : Crossword} {fuel : Nat} {d : Dict} {arcs}
    {b : Bool} {d' : Dict} (h : ac3 cw fuel d arcs = some (b, d'))
    (v : Variable) (w : Word) (hw : w ∈ dictGetD d' v []) :
    w ∈ dictGetD d v [] :=
  ac3Loop_subset cw fuel d _ b d' h v w hw

/-! Claim theorems about `revise`, the domain store, and `ac3`'s
argument default. -/

/-- C7: for every pair of distinct slots `x` and `y`, after
`revise(x, y)` a word `w` is in `domains[x]` iff it was there before the
call and either no overlap exists between `x` and `y`, or some word of
`domains[y]` agrees with `w` at the overlap offsets; and `revise` returns
`True` exactly when `domains[x]` changed. -/
theorem revise_sound (cw : Crossword) (d : Dict) (x y : Variable)
    (w : Word) (_hxy : x ≠ y) :
    (w ∈ dictGetD (revise cw d x y).2 x [] ↔
      w ∈ dictGetD d x [] ∧
        (cw.overlaps x y = none ∨
          ∃ o₁ o₂, cw.overlaps x y = some (o₁, o₂) ∧
            ∃ wy ∈ dictGetD d y [], charAt wy o₂ = charAt w o₁)) ∧
    ((revise cw d x y).1 = true ↔
      dictGetD (revise cw d x y).2 x [] ≠ dictGetD d x []) :=
  ⟨revise_mem_x cw d x y w, revise_flag cw d x y⟩

/-- Witness for C7: `revise_sound` applied to the two crossing slots of
`cw2` with their full domains and the word `ab`. -/
theorem revise_sound_witness :
    vX ≠ vY ∧
    ((wAB ∈ dictGetD (revise cw2 dom2 vX vY).2 vX [] ↔
      wAB ∈ dictGetD dom2 vX [] ∧
        (cw2.overlaps vX vY = none ∨
          ∃ o₁ o₂, cw2.overlaps vX vY = some (o₁, o₂) ∧
            ∃ wy ∈ dictGetD dom2 vY [], charAt wy o₂ = charAt wAB o₁)) ∧
    ((revise cw2 dom2 vX vY).1 = true ↔
      dictGetD (revise cw2 dom2 vX vY).2 vX [] ≠ dictGetD dom2 vX [])) :=
  ⟨by decide, revise_sound cw2 dom2 vX vY wAB (by decide)⟩

/-- C8: every slot's domain only shrinks — it is a subset of the pre-call
domain after `enforce_node_consistency`, after any `revise`, and after
any terminating `ac3` run (membership form: every word in the post-call
domain of `v` was already in its pre-call domain). -/
theorem domains_shrink (cw : Crossword) (d : Dict) (x y v : Variable)
    (w : Word) (fuel : Nat) (arcs : Option (List (Variable × Variable)))
    (b : Bool) (d' : Dict) (hac3 : ac3 cw fuel d arcs = some (b, d')) :
    (w ∈ dictGetD (enforce_node_consistency d) v [] →
      w ∈ dictGetD d v []) ∧
    (w ∈ dictGetD (revise cw d x y).2 v [] → w ∈ dictGetD d v []) ∧
    (w ∈ dictGetD d' v [] → w ∈ dictGetD d v []) :=
  ⟨enforce_subset d v w, revise_subset cw d x y v w, ac3_subset hac3 v w⟩

/-- Witness for C8: `domains_shrink` applied to `cw2` with a concrete
terminating `ac3` run. -/
theorem domains_shrink_witness :
    (wAB ∈ dictGetD (enforce_node_consistency dom2) vX [] →
      wAB ∈ dictGetD dom2 vX []) ∧
    (wAB ∈ dictGetD (revise cw2 dom2 vX vY).2 vX [] →
      wAB ∈ dictGetD dom2 vX []) ∧
    (wAB ∈ dictGetD dom2 vX [] → wAB ∈ dictGetD dom2 vX []) :=
  domains_shrink cw2 dom2 vX vY vX wAB 5 none true dom2 (by decide)

/-- C9: the domain store has exactly one entry per slot — it is created
with the slot list as its key list, and `enforce_node_consistency`,
`revise`, and terminating `ac3` runs all preserve the key list. -/
theorem domains_keyset (cw : Crossword) (d : Dict) (x y : Variable)
    (fuel : Nat) (arcs : Option (List (Variable × Variable))) (b : Bool)
    (d' : Dict) (hac3 : ac3 cw fuel d arcs = some (b, d')) :
    dictKeys (initDomains cw) = cw.vars ∧
    dictKeys (enforce_node_consistency d) = dictKeys d ∧
    dictKeys (revise cw d x y).2 = dictKeys d ∧
    dictKeys d' = dictKeys d := by
  refine ⟨?_, dictKeys_enforce d, revise_keys cw d x y, ac3_keys hac3⟩
  simp [dictKeys, initDomains, List.map_map, Function.comp_def]

/-- Witness for C9: `domains_keyset` applied to `cw2` with a concrete
terminating `ac3` run. -/
theorem domains_keyset_witness :
    dictKeys (initDomains cw2) = cw2.vars ∧
    dictKeys (enforce_node_consistency dom2) = dictKeys dom2 ∧
    dictKeys (revise cw2 dom2 vX vY).2 = dictKeys dom2 ∧
    dictKeys dom2 = dictKeys dom2 :=
  domains_keyset cw2 dom2 vX vY 5 none true dom2 (by decide)

/-- C10: calling `ac3` with an explicitly empty initial arc list behaves
identically to calling it with no argument — `if not arcs:` replaces the
empty list by the list of all ordered pairs of distinct slots. -/
theorem ac3_empty_list_eq_default (cw : Crossword) (fuel : Nat) (d : Dict) :
    ac3 cw fuel d (some []) = ac3 cw fuel d none := rfl

/-! Divergence of `ac3` on the 2x2 open grid `cw4`: because the source
re-enqueues arcs unconditionally, every loop iteration that pops an arc
between distinct slots of `cw4` pushes at least one new arc (every slot
of the 4-cycle has two neighbors), so the queue never empties. -/

theorem cw4_revise_fixed :
    ∀ x ∈ cw4.vars, ∀ y ∈ cw4.vars, x ≠ y →
      revise cw4 dom4 x y = (false, dom4) := by decide

theorem cw4_newArcs_facts :
    ∀ x ∈ cw4.vars, ∀ y ∈ cw4.vars,
      ((neighbors cw4 x).filter (fun z => z ≠ y)) ≠ [] ∧
      ∀ z ∈ (neighbors cw4 x).filter (fun z => z ≠ y),
        z ∈ cw4.vars ∧ z ≠ x := by decide

theorem ac3Loop_cw4_diverges :
    ∀ (fuel : Nat) (arcs : List (Variable × Variable)),
      arcs ≠ [] →
      (∀ p ∈ arcs, p.1 ∈ cw4.vars ∧ p.2 ∈ cw4.vars ∧ p.1 ≠ p.2) →
      ac3Loop cw4 fuel dom4 arcs = none := by
  intro fuel
  induction fuel with
  | zero => intro arcs _ _; rfl
  | succ n ih =>
      intro arcs hne hinv
      obtain ⟨⟨x, y⟩, hp⟩ : ∃ p, arcs.getLast? = some p :=
        Option.isSome_iff_exists.mp (List.getLast?_isSome.mpr hne)
      obtain ⟨hx, hy, hxy⟩ := hinv (x, y) (List.mem_of_mem_getLast? hp)
      have hrev : revise cw4 dom4 x y = (false, dom4) :=
        cw4_revise_fixed x hx y hy hxy
      have hstep : ac3Step cw4 dom4 arcs =
          .cont dom4
            ((((neighbors cw4 x).filter (fun z => z ≠ y)).map
                (fun z => (z, x))).reverse ++ arcs.dropLast) := by
        unfold ac3Step
        rw [hp]
        dsimp only
        rw [hrev]
        simp
      rw [ac3Loop, hstep]
      obtain ⟨hfne, hfmem⟩ := cw4_newArcs_facts x hx y hy
      refine ih _ ?_ ?_
      · intro habs
        rcases List.append_eq_nil.mp habs with ⟨h₁, -⟩
        rw [List.reverse_eq_nil_iff, List.map_eq_nil_iff] at h₁
        exact hfne h₁
      · intro p hpmem
        rcases List.mem_append.mp hpmem with h | h
        · rw [List.mem_reverse] at h
          obtain ⟨z, hz, rfl⟩ := List.mem_map.mp h
          obtain ⟨hzv, hzx⟩ := hfmem z hz
          exact ⟨hzv, hx, hzx⟩
        · exact hinv p (List.mem_of_mem_dropLast h)

/-! Claim theorems about `ac3` termination, the re-enqueue condition, and
search completeness: the source re-enqueues arcs unconditionally (the
`for` loop at the end of `ac3`'s body is not guarded by the result of
`revise`), so on any crossword whose overlap graph contains a cycle the
worklist never empties. -/

/-- C1 (refuting theorem): `ac3` does not terminate on every finite
input.  On the 2x2 fully open grid `cw4` (four slots, overlap graph a
4-cycle) with its node-consistent domain store, the worklist loop runs
out of any amount of fuel: the queue-driven loop never reaches an empty
queue or an empty domain. -/
theorem ac3_nonterminating_on_cw4 :
    ∀ fuel : Nat, ac3 cw4 fuel dom4 none = none := by
  intro fuel
  exact ac3Loop_cw4_diverges fuel (allArcs dom4) (by decide) (by decide)

/-- C5 (refuting theorem): after popping the arc `(vA, vC)` of `cw4`,
`revise` reports no change, yet the loop body still re-enqueues the arc
`(vD, vA)` — the claim says no arcs are added when `revise` reports no
change, but the queue after the iteration is `[(vD, vA)]`, not `[]`. -/
theorem ac3_requeues_without_revision :
    revise cw4 dom4 vA vC = (false, dom4) ∧
    ac3Step cw4 dom4 [(vA, vC)] = .cont dom4 [(vD, vA)] ∧
    ([(vD, vA)] : List (Variable × Variable)) ≠ [] := by decide

/-- C2 (refuting theorem): `backtrack` can return the no-solution result
with the assignment changed from its value at entry.  On `cw1` (one slot
of length 2 whose only candidate word `abc` has length 3), the call
`backtrack({})` tries `abc`, fails the consistency check, and — because
`del assignment[unassigned_var]` sits inside the
`if self.consistent(assignment):` branch — never removes the entry: the
call returns `None` with the assignment equal to `{vSolo: abc}`, not to
the entry value `{}`. -/
theorem backtrack_leaves_stale_entry :
    backtrack cw1 (initDomains cw1) 5 [] =
      some (none, [(vSolo, wABC)]) ∧
    ([(vSolo, wABC)] : Assignment) ≠ [] := by decide

/-- C3 (refuting theorem): `solve` does not return an assignment for
every satisfiable instance.  The 2x2 open grid `cw4` admits the complete,
spec-consistent assignment `aSol`, yet `solve` never returns at all: its
unconditional `ac3` pass diverges, so no amount of fuel makes `solve`
produce a result. -/
theorem solve_diverges_on_satisfiable_cw4 :
    (∀ fuel : Nat, solve cw4 fuel = none) ∧
    (∀ v ∈ cw4.vars, (dictGet aSol v).isSome) ∧
    SpecConsistent cw4 aSol := by
  refine ⟨?_, by decide, by decide⟩
  intro fuel
  have h : ac3 cw4 fuel (enforce_node_consistency (initDomains cw4)) none
      = none :=
    ac3Loop_cw4_diverges fuel (allArcs dom4) (by decide) (by decide)
  simp only [solve, h]

/-! The consistency checker: relating the source's three boolean checks
to the spec's three clauses. -/

theorem charAt_of_getElem {w : Word} {i : Nat} {c : Char}
    (h : w[i]? = some c) : charAt w i = c := by
  unfold charAt
  rw [List.getD_eq_getElem?_getD, h]
  rfl

theorem getElem_of_lt {w : Word} {i : Nat} (h : i < w.length) :
    w[i]? = some (charAt w i) := by
  rw [List.getElem?_eq_getElem h]
  unfold charAt
  rw [List.getD_eq_getElem?_getD, List.getElem?_eq_getElem h]
  rfl

theorem distinctB_iff (l : List Word) : distinctB l = true ↔ l.Nodup := by
  unfold distinctB
  constructor
  · intro h
    have hlen : l.dedup.length = l.length := by simpa using h
    have hded : l.dedup = l := (l.dedup_sublist).eq_of_length hlen
    rw [← hded]
    exact l.nodup_dedup
  · intro h
    simp [List.dedup_eq_self.mpr h]

theorem mem_neighbors_iff {cw : Crossword} {v u : Variable} :
    u ∈ neighbors cw v ↔
      u ∈ cw.vars ∧ u ≠ v ∧ (cw.overlaps v u).isSome = true := by
  unfold neighbors
  simp [List.mem_filter, and_assoc]

theorem mem_overlapChecks_iff {cw : Crossword} {a : Assignment}
    {n w : Variable} :
    (n, w) ∈ overlapChecks cw a ↔
      w ∈ dictKeys a ∧ n ∈ neighbors cw w ∧ dictHasKey a n = true := by
  unfold overlapChecks
  simp only [List.mem_flatMap, List.mem_map, List.mem_filter]
  constructor
  · rintro ⟨w', hw', n', ⟨hn', hk'⟩, heq⟩
    obtain ⟨rfl, rfl⟩ : n' = n ∧ w' = w := by
      simpa [Prod.ext_iff] using heq
    exact ⟨hw', hn', hk'⟩
  · rintro ⟨hw, hn, hk⟩
    exact ⟨w, hw, n, ⟨hn, hk⟩, rfl⟩

theorem conflictsAll_true_iff (cw : Crossword) (a : Assignment) :
    ∀ l, conflictsAll cw a l = some true ↔
      ∀ p ∈ l, checkPair cw a p = some true := by
  intro l
  induction l with
  | nil => simp [conflictsAll]
  | cons p ps ih =>
      unfold conflictsAll
      cases hc : checkPair cw a p with
      | none => simp [hc]
      | some b =>
          cases b
          · simp [hc]
          · simp [hc, ih]

theorem conflictsAll_total (cw : Crossword) (a : Assignment) :
    ∀ l, (∀ p ∈ l, (checkPair cw a p).isSome = true) →
      ∃ c, conflictsAll cw a l = some c := by
  intro l
  induction l with
  | nil => intro _; exact ⟨true, rfl⟩
  | cons p ps ih =>
      intro h
      unfold conflictsAll
      cases hc : checkPair cw a p with
      | none =>
          have := h p (by simp)
          simp [hc] at this
      | some b =>
          cases b
          · exact ⟨false, rfl⟩
          · exact ih (fun q hq => h q (by simp [hq]))

theorem checkPair_eval {cw : Crossword} {a : Assignment} {n w : Variable}
    {o₁ o₂ : Nat} {wn ww : Word}
    (hov : cw.overlaps n w = some (o₁, o₂))
    (hgn : dictGet a n = some wn) (hgw : dictGet a w = some ww)
    (h₁ : o₁ < wn.length) (h₂ : o₂ < ww.length) :
    checkPair cw a (n, w) = some (charAt wn o₁ == charAt ww o₂) := by
  unfold checkPair
  rw [hov]
  dsimp only
  rw [hgn, hgw]
  dsimp only
  rw [getElem_of_lt h₁, getElem_of_lt h₂]

theorem checkPair_true_elim {cw : Crossword} {a : Assignment}
    {n w : Variable} (h : checkPair cw a (n, w) = some true)
    {o₁ o₂ : Nat} (hov : cw.overlaps n w = some (o₁, o₂))
    {wn ww : Word} (hgn : dictGet a n = some wn)
    (hgw : dictGet a w = some ww) :
    charAt wn o₁ = charAt ww o₂ := by
  unfold checkPair at h
  rw [hov] at h
  dsimp only at h
  rw [hgn, hgw] at h
  dsimp only at h
  cases hc₁ : wn[o₁]? with
  | none => rw [hc₁] at h; cases h
  | some c₁ =>
      cases hc₂ : ww[o₂]? with
      | none => rw [hc₁, hc₂] at h; cases h
      | some c₂ =>
          rw [hc₁, hc₂] at h
          have hcc : c₁ = c₂ := beq_iff_eq.mp (Option.some.inj h)
          rw [charAt_of_getElem hc₁, charAt_of_getElem hc₂, hcc]

theorem mem_overlapChecks_data {cw : Crossword} {a : Assignment}
    (hwf : WF cw) (hkeys : ∀ p ∈ a, p.1 ∈ cw.vars)
    {n w : Variable} (hp : (n, w) ∈ overlapChecks cw a) :
    ∃ o₁ o₂ wn ww,
      cw.overlaps n w = some (o₁, o₂) ∧
      dictGet a n = some wn ∧ dictGet a w = some ww ∧
      (n, wn) ∈ a ∧ (w, ww) ∈ a := by
  obtain ⟨hw, hn, hk⟩ := mem_overlapChecks_iff.mp hp
  obtain ⟨ww, hww⟩ := Option.isSome_iff_exists.mp (dictGet_isSome_iff.mpr hw)
  obtain ⟨wn, hwn⟩ := Option.isSome_iff_exists.mp hk
  obtain ⟨hnv, hnw, hov⟩ := mem_neighbors_iff.mp hn
  obtain ⟨⟨i, j⟩, hij⟩ := Option.isSome_iff_exists.mp hov
  have hmemn : (n, wn) ∈ a := mem_of_dictGet hwn
  have hmemw : (w, ww) ∈ a := mem_of_dictGet hww
  obtain ⟨-, hb⟩ := hwf w (hkeys _ hmemw) n (hkeys _ hmemn)
  unfold overlapWFB at hb
  rw [hij] at hb
  simp only [Bool.and_eq_true, beq_iff_eq, decide_eq_true_eq] at hb
  exact ⟨j, i, wn, ww, hb.1.1, hwn, hww, hmemn, hmemw⟩

theorem consistent_true_elim {cw : Crossword} {a : Assignment} {b : Bool}
    (h : consistent cw a = some b) :
    ∃ c, conflictsAll cw a (overlapChecks cw a) = some c ∧
      b = (distinctB (a.map Prod.snd) &&
        a.all (fun p => p.2.length == p.1.length) && c) := by
  unfold consistent at h
  cases hc : conflictsAll cw a (overlapChecks cw a) with
  | none => rw [hc] at h; cases h
  | some c =>
      rw [hc] at h
      exact ⟨c, rfl, (Option.some.inj h).symm⟩

theorem consistent_true_spec (cw : Crossword) (a : Assignment)
    (hwf : WF cw) (hkeys : ∀ p ∈ a, p.1 ∈ cw.vars)
    (hnodup : (dictKeys a).Nodup)
    (h : consistent cw a = some true) : SpecConsistent cw a := by
  obtain ⟨c, hc, hb⟩ := consistent_true_elim h
  have hcomp := hb.symm
  simp only [Bool.and_eq_true] at hcomp
  obtain ⟨⟨hrep, hfits⟩, hcv⟩ := hcomp
  refine ⟨?_, ?_, ?_⟩
  · intro p hp
    exact beq_iff_eq.mp (List.all_eq_true.mp hfits p hp)
  · exact (distinctB_iff _).mp hrep
  · intro p hp q hq
    unfold overlapAgreesB
    cases hov : cw.overlaps p.1 q.1 with
    | none => rfl
    | some o =>
        obtain ⟨i, j⟩ := o
        have hpv := hkeys p hp
        have hqv := hkeys q hq
        have hirr := (hwf p.1 hpv p.1 hpv).1
        have hne : p.1 ≠ q.1 := by
          intro he
          rw [← he, hirr] at hov
          cases hov
        obtain ⟨-, hb2⟩ := hwf p.1 hpv q.1 hqv
        unfold overlapWFB at hb2
        rw [hov] at hb2
        simp only [Bool.and_eq_true, beq_iff_eq, decide_eq_true_eq] at hb2
        have hsym : cw.overlaps q.1 p.1 = some (j, i) := hb2.1.1
        have hget_p : dictGet a p.1 = some p.2 :=
          dictGet_of_mem_nodup hnodup hp
        have hget_q : dictGet a q.1 = some q.2 :=
          dictGet_of_mem_nodup hnodup hq
        have hmemchk : (p.1, q.1) ∈ overlapChecks cw a := by
          refine mem_overlapChecks_iff.mpr ⟨?_, ?_, ?_⟩
          · exact List.mem_map_of_mem Prod.fst hq
          · exact mem_neighbors_iff.mpr ⟨hpv, hne, by simp [hsym]⟩
          · unfold dictHasKey
            simp [hget_p]
        have hpair : checkPair cw a (p.1, q.1) = some true :=
          (conflictsAll_true_iff cw a _).mp (hcv ▸ hc) _ hmemchk
        have hagree := checkPair_true_elim hpair hov hget_p hget_q
        simp [hagree]

/-! Claim theorems about the consistency checker. -/

/-- C6 counterexample: the checker does not always return a boolean.  On
the crossword `cwC6` (two crossing slots of length 3) and the partial
assignment `{vP: a, vQ: bcd}`, the conflict comparison indexes the word
`a` at overlap offset 2 and Python raises `IndexError`; in the embedding
the checker returns the fault value `none` instead of a boolean. -/
theorem consistent_can_fault : consistent cwC6 aC6 = none := by decide

/-- C6 (amended): for assignments over the crossword's slots (one entry
per slot at most) in which every overlap offset used lands inside the
assigned words — in particular whenever assigned word lengths match slot
lengths — `consistent` returns a boolean, and that boolean is `True` iff
the three clauses (length fit, pairwise distinct words, overlap
agreement on assigned pairs) all hold; unassigned slots impose no
constraint.  On assignments violating the in-range condition the checker
can fault instead of returning `False` (see `consistent_can_fault`). -/
theorem consistent_checker_correct (cw : Crossword) (a : Assignment)
    (hwf : WF cw) (hkeys : ∀ p ∈ a, p.1 ∈ cw.vars)
    (hnodup : (dictKeys a).Nodup)
    (hrange : ∀ p ∈ a, ∀ q ∈ a, inRangeB cw p q = true) :
    ∃ b, consistent cw a = some b ∧ (b = true ↔ SpecConsistent cw a) := by
  have htot : ∀ p ∈ overlapChecks cw a, (checkPair cw a p).isSome = true := by
    intro p hp
    obtain ⟨n, w⟩ := p
    obtain ⟨o₁, o₂, wn, ww, hov, hgn, hgw, hmn, hmw⟩ :=
      mem_overlapChecks_data hwf hkeys hp
    have hr := hrange _ hmn _ hmw
    unfold inRangeB at hr
    rw [hov] at hr
    simp only [Bool.and_eq_true, decide_eq_true_eq] at hr
    rw [checkPair_eval hov hgn hgw hr.1 hr.2]
    rfl
  obtain ⟨c, hc⟩ := conflictsAll_total cw a _ htot
  refine ⟨distinctB (a.map Prod.snd) &&
      a.all (fun p => p.2.length == p.1.length) && c, ?_, ?_⟩
  · unfold consistent
    rw [hc]
  · constructor
    · intro hb
      apply consistent_true_spec cw a hwf hkeys hnodup
      unfold consistent
      rw [hc]
      dsimp only
      rw [hb]
    · rintro ⟨h1, h2, h3⟩
      have hrep : distinctB (a.map Prod.snd) = true := (distinctB_iff _).mpr h2
      have hfits : a.all (fun p => p.2.length == p.1.length) = true := by
        rw [List.all_eq_true]
        intro p hp
        exact beq_iff_eq.mpr (h1 p hp)
      have hcall : conflictsAll cw a (overlapChecks cw a) = some true := by
        rw [conflictsAll_true_iff]
        intro p hp
        obtain ⟨n, w⟩ := p
        obtain ⟨o₁, o₂, wn, ww, hov, hgn, hgw, hmn, hmw⟩ :=
          mem_overlapChecks_data hwf hkeys hp
        have hr := hrange _ hmn _ hmw
        unfold inRangeB at hr
        rw [hov] at hr
        simp only [Bool.and_eq_true, decide_eq_true_eq] at hr
        rw [checkPair_eval hov hgn hgw hr.1 hr.2]
        have hag := h3 _ hmn _ hmw
        unfold overlapAgreesB at hag
        rw [hov] at hag
        dsimp only at hag
        rw [hag]
      have hce : c = true := Option.some.inj (hc.symm.trans hcall)
      rw [hrep, hfits, hce]
      rfl

/-- Witness for the amended C6: the checker evaluated on the complete
in-range assignment `{vX: ab, vY: ac}` of `cw3`. -/
theorem consistent_checker_correct_witness :
    ∃ b, consistent cw3 aXY = some b ∧ (b = true ↔ SpecConsistent cw3 aXY) :=
  consistent_checker_correct cw3 aXY (by decide) (by decide) (by decide)
    (by decide)

/-! Backtracking search: the invariant carried through the value loop and
the recursion — nodup keys of the threaded assignment, and completeness
plus checker-consistency of any returned solution. -/

theorem dictKeys_initDomains (cw : Crossword) :
    dictKeys (initDomains cw) = cw.vars := by
  simp [dictKeys, initDomains, List.map_map, Function.comp_def]

theorem consistent_empty (cw : Crossword) : consistent cw [] = some true :=
  rfl

theorem tryValues_invariant (cw : Crossword) (d : Dict)
    (recurse : Assignment → Option (Option Assignment × Assignment))
    (Hrec : ∀ a res s, (dictKeys a).Nodup →
      consistent cw a = some true →
      recurse a = some (res, s) →
      (dictKeys s).Nodup ∧
        ∀ r, res = some r →
          assignment_complete d r = true ∧ consistent cw r = some true ∧
            (dictKeys r).Nodup)
    (var : Variable) :
    ∀ (vs : List Word) (a : Assignment) (res : Option Assignment)
      (s : Assignment),
      (dictKeys a).Nodup →
      tryValues cw recurse var vs a = some (res, s) →
      (dictKeys s).Nodup ∧
        ∀ r, res = some r →
          assignment_complete d r = true ∧ consistent cw r = some true ∧
            (dictKeys r).Nodup := by
  intro vs
  induction vs with
  | nil =>
      intro a res s hnd h
      unfold tryValues at h
      cases h
      refine ⟨hnd, ?_⟩
      rintro r ⟨⟩
  | cons v vs ih =>
      intro a res s hnd h
      unfold tryValues at h
      dsimp only at h
      cases hcons : consistent cw (dictSet a var v) with
      | none => rw [hcons] at h; cases h
      | some b =>
          rw [hcons] at h
          cases b
          · exact ih (dictSet a var v) res s
              (dictKeys_nodup_dictSet hnd var v) h
          · cases hrec : recurse (dictSet a var v) with
            | none => rw [hrec] at h; cases h
            | some p =>
                obtain ⟨res0, a2⟩ := p
                rw [hrec] at h
                obtain ⟨hnd2, hgood⟩ := Hrec (dictSet a var v) res0 a2
                  (dictKeys_nodup_dictSet hnd var v) hcons hrec
                dsimp only at h
                by_cases ht : truthy res0 = true
                · rw [if_pos ht] at h
                  cases h
                  exact ⟨hnd2, hgood⟩
                · rw [if_neg ht] at h
                  exact ih (dictDel a2 var) res s
                    (dictKeys_nodup_dictDel hnd2 var) h

theorem backtrack_invariant (cw : Crossword) (d : Dict) :
    ∀ (fuel : Nat) (a : Assignment) (res : Option Assignment)
      (s : Assignment),
      (dictKeys a).Nodup →
      backtrack cw d fuel a = some (res, s) →
      (dictKeys s).Nodup ∧
        (consistent cw a = some true →
          ∀ r, res = some r →
            assignment_complete d r = true ∧ consistent cw r = some true ∧
              (dictKeys r).Nodup) := by
  intro fuel
  induction fuel with
  | zero => intro a res s _ h; cases h
  | succ n ih =>
      intro a res s hnd h
      unfold backtrack at h
      by_cases hcomp : assignment_complete d a = true
      · rw [if_pos hcomp] at h
        cases h
        refine ⟨hnd, fun hca r hr => ?_⟩
        cases hr
        exact ⟨hcomp, hca, hnd⟩
      · rw [if_neg hcomp] at h
        cases hsel : select_unassigned_variable cw d a with
        | none => rw [hsel] at h; cases h
        | some var =>
            rw [hsel] at h
            have Hrec : ∀ a' res' s', (dictKeys a').Nodup →
                consistent cw a' = some true →
                backtrack cw d n a' = some (res', s') →
                (dictKeys s').Nodup ∧
                  ∀ r, res' = some r →
                    assignment_complete d r = true ∧
                      consistent cw r = some true ∧ (dictKeys r).Nodup := by
              intro a' res' s' hnd' hcons' h'
              obtain ⟨h₁, h₂⟩ := ih a' res' s' hnd' h'
              exact ⟨h₁, h₂ hcons'⟩
            obtain ⟨h₁, h₂⟩ := tryValues_invariant cw d (backtrack cw d n)
              Hrec var (order_domain_values cw d var a) a res s hnd h
            exact ⟨h₁, fun _ => h₂⟩

/-- C4: soundness of the search.  Whenever `solve` returns an assignment
(rather than diverging or returning the no-solution result), that
assignment is complete — it has an entry for every slot of the crossword
and no entry outside the slot set — and spec-consistent: every assigned
word fits its slot's length, the words are pairwise distinct, and every
assigned overlapping pair agrees on the shared-offset characters. -/
theorem solve_sound (cw : Crossword) (fuel : Nat) (r : Assignment)
    (hwf : WF cw) (hsolve : solve cw fuel = some (some r)) :
    (∀ v ∈ cw.vars, (dictGet r v).isSome = true) ∧
    (∀ p ∈ r, p.1 ∈ cw.vars) ∧
    SpecConsistent cw r := by
  unfold solve at hsolve
  dsimp only at hsolve
  cases hac : ac3 cw fuel (enforce_node_consistency (initDomains cw)) none
    with
  | none => rw [hac] at hsolve; cases hsolve
  | some p =>
      obtain ⟨b, d2⟩ := p
      rw [hac] at hsolve
      dsimp only at hsolve
      cases hbt : backtrack cw d2 fuel [] with
      | none => rw [hbt] at hsolve; cases hsolve
      | some q =>
          obtain ⟨res, s⟩ := q
          rw [hbt] at hsolve
          dsimp only at hsolve
          have hres : res = some r := Option.some.inj hsolve
          obtain ⟨-, hmain⟩ := backtrack_invariant cw d2 fuel [] res s
            (by simp [dictKeys]) hbt
          obtain ⟨hcomp, hcons, hndr⟩ :=
            hmain (consistent_empty cw) r hres
          have hkeys_d2 : dictKeys d2 = cw.vars := by
            rw [ac3_keys hac, dictKeys_enforce, dictKeys_initDomains]
          simp only [assignment_complete, Bool.and_eq_true,
            List.all_eq_true] at hcomp
          have hmemvar : ∀ p ∈ r, p.1 ∈ cw.vars := by
            intro p hp
            have h₁ : p.1 ∈ dictKeys r := List.mem_map_of_mem Prod.fst hp
            have h₂ := hcomp.1 p.1 h₁
            rw [List.elem_iff] at h₂
            rwa [hkeys_d2] at h₂
          refine ⟨?_, hmemvar, consistent_true_spec cw r hwf hmemvar hndr hcons⟩
          intro v hv
          have h₁ : v ∈ dictKeys d2 := by rw [hkeys_d2]; exact hv
          have h₂ := hcomp.2 v h₁
          rw [List.elem_iff] at h₂
          exact dictGet_isSome_iff.mpr h₂

/-- Witness for C4: `solve` on the satisfiable two-slot crossword `cw3`
returns the complete assignment `{vX: ab, vY: ac}`, which the theorem
certifies complete and spec-consistent. -/
theorem solve_sound_witness :
    (∀ v ∈ cw3.vars, (dictGet aXY v).isSome = true) ∧
    (∀ p ∈ aXY, p.1 ∈ cw3.vars) ∧
    SpecConsistent cw3 aXY :=
  solve_sound cw3 10 aXY (by decide) (by decide)
